import Mathlib

/-!
Verification of the interval algebra at the core of `freetime.go`.

The program computes free meeting slots by subtracting busy calendar
events from canonical 10:00-18:00 workday windows.  We embed the core
types and functions shallowly:

* A Go `time.Time` is an absolute instant; all the operations used by
  the core (`After`, `Before`, `Equal`, `Sub`) are order/difference
  operations on the instant line, so an instant is modelled as an `Int`
  counting nanoseconds from an epoch (Go durations are int64
  nanoseconds).
* For `nextWorkDay`, the code also uses civil-calendar operations
  (`time.Date(Year, Month, Day, h, 0, 0, 0, loc)`, `AddDate(0, 0, n)`,
  `Weekday`) in the single local timezone.  We model the local zone as
  a fixed-offset zone (no DST transitions), choosing the epoch so that
  nanosecond 0 starts a Monday: truncating an instant to its calendar
  date is then flooring to a multiple of `nsPerDay`, `AddDate(0,0,n)`
  adds `n * nsPerDay`, and Go's `Weekday` (Sunday = 0 .. Saturday = 6)
  of an instant `t` is `(t.ediv nsPerDay + 1).emod 7`.
* `Range` is Go's `type Range struct { start, end time.Time }`; the
  field `end` is a Lean keyword and is named `stop` here, with the
  accessor `Range.End` keeping the Go method name.
-/

namespace Freetime

def nsPerMinute : Int := 60000000000

def nsPerHour : Int := 3600000000000

def nsPerDay : Int := 86400000000000

/-- Weekday of the instant `t` in the Go numbering (Sunday = 0 ..
Saturday = 6), for a fixed-offset local zone whose epoch instant 0 is a
Monday 00:00.  Division on `Int` is Euclidean, which is floor division
for the positive divisor `nsPerDay`, so `t / nsPerDay` is the calendar
date of `t`. -/
def weekdayOf (t : Int) : Int :=
  (t / nsPerDay + 1) % 7

/-- Calendar-date truncation at 10:00: models
`time.Date(t.Year(), t.Month(), t.Day(), 10, 0, 0, 0, t.Location())`. -/
def tenAMOnDateOf (t : Int) : Int :=
  t / nsPerDay * nsPerDay + 10 * nsPerHour

/-- Calendar-date truncation at 18:00: models
`time.Date(t.Year(), t.Month(), t.Day(), 18, 0, 0, 0, t.Location())`. -/
def sixPMOnDateOf (t : Int) : Int :=
  t / nsPerDay * nsPerDay + 18 * nsPerHour

/-- Embeds `type Range struct { start, end time.Time }` (the Go field
`end` is named `stop` because `end` is a Lean keyword). -/
structure Range where
  start : Int
  stop : Int
  deriving DecidableEq, Repr

/-- Embeds `func (r *Range) Start() time.Time { return r.start }`. -/
def Range.Start (r : Range) : Int := r.start

/-- Embeds `func (r *Range) End() time.Time { return r.end }`. -/
def Range.End (r : Range) : Int := r.stop

/-- Embeds `func (r *Range) Duration() time.Duration`, which returns
`r.end.Sub(r.start)` in nanoseconds. -/
def Range.Duration (r : Range) : Int := r.stop - r.start

/-- Embeds `func (r *Range) split(start, end time.Time) []Range`.
The two leading guards return `[*r]` when the splitter is disjoint
(touching endpoints included); otherwise up to two remainder pieces are
appended: the left remainder when the splitter starts strictly inside
`r`, then the right remainder when it ends strictly inside `r`. -/
def Range.split (r : Range) (s e : Int) : List Range :=
  -- if r.Start().After(end) || r.Start().Equal(end) { return []Range{*r} }
  if e < r.start ∨ r.start = e then [r]
  -- else if r.End().Before(start) || r.End().Equal(start) { return []Range{*r} }
  else if r.stop < s ∨ r.stop = s then [r]
  else
    -- if start.After(r.Start()) && start.Before(r.End()) { append Range{r.Start(), start} }
    (if r.start < s ∧ s < r.stop then [Range.mk r.start s] else []) ++
    -- if end.After(r.Start()) && end.Before(r.End()) { append Range{end, r.End()} }
    (if r.start < e ∧ e < r.stop then [Range.mk e r.stop] else [])

/-- Embeds `func (r *Range) After(t time.Time) Range`. -/
def Range.After (r : Range) (t : Int) : Range :=
  if r.stop < t then Range.mk r.stop r.stop
  else if t < r.start then r
  else Range.mk t r.stop

/-- Embeds the first step of `func nextWorkDay(now time.Time) Range`:
with `nowAtSix := time.Date(..now's date.., 18, 0, 0, 0, ..)`, if
`now.After(nowAtSix) || now.Equal(nowAtSix)` then `nextStart` is 10:00
on the date of `now.AddDate(0, 0, 1)` (in a fixed-offset zone,
`AddDate(0, 0, 1)` adds `nsPerDay`), else 10:00 on the date of `now`. -/
def nextStartCandidate (now : Int) : Int :=
  if sixPMOnDateOf now < now ∨ now = sixPMOnDateOf now then
    tenAMOnDateOf (now + nsPerDay)
  else
    tenAMOnDateOf now

/-- Embeds the weekend adjustment of `nextWorkDay`: a Saturday start is
pushed by `AddDate(0, 0, 2)`, a Sunday start by `AddDate(0, 0, 1)`. -/
def nextStartAdjusted (now : Int) : Int :=
  if weekdayOf (nextStartCandidate now) = 6 then
    nextStartCandidate now + 2 * nsPerDay
  else if weekdayOf (nextStartCandidate now) = 0 then
    nextStartCandidate now + nsPerDay
  else
    nextStartCandidate now

/-- Embeds `func nextWorkDay(now time.Time) Range`: the adjusted 10:00
start, ending at 18:00 of the same date
(`time.Date(nextStart.Year(), .., 18, 0, 0, 0, ..)`). -/
def nextWorkDay (now : Int) : Range :=
  Range.mk (nextStartAdjusted now) (sixPMOnDateOf (nextStartAdjusted now))

/-- Two half-open ranges `[a.start, a.stop)` and `[b.start, b.stop)`
share at least one point. -/
def rangesOverlap (a b : Range) : Prop :=
  a.start < b.stop ∧ b.start < a.stop

instance (a b : Range) : Decidable (rangesOverlap a b) := by
  unfold rangesOverlap; infer_instance

/-- Embeds one reduction step of the event loop in `main`: for one busy
event `[s, e)`, replace every range `r` of the free list by
`r.split(s, e)`, concatenating the outputs in original list order
(the `newRanges` accumulation). -/
def splitAll (s e : Int) : List Range → List Range
  | [] => []
  | r :: rs => r.split s e ++ splitAll s e rs

/-- Embeds the prune-short-ranges loop of `main`: keep `r` when
`r.Duration().Minutes() >= 30`.  A Go `Duration` is an integer count of
nanoseconds below `2^63`, so the float comparison `Minutes() >= 30`
holds exactly when `duration ≥ 30 * nsPerMinute` (the quotient by
6e10 rounds across 30.0 only within 2^-49 of it, which no integer
nanosecond count reaches). -/
def pruneShort (rs : List Range) : List Range :=
  rs.foldl (fun acc r => if 30 * nsPerMinute ≤ r.Duration then acc ++ [r] else acc) []

/-! ### Helper lemmas (shared between claim theorems) -/

/-- When the splitter is disjoint from `r` (touching endpoints
included), either leading guard of `split` returns the receiver. -/
theorem split_eq_single_of_disjoint (r : Range) (s e : Int)
    (h : r.stop ≤ s ∨ e ≤ r.start) : r.split s e = [r] := by
  by_cases g1 : e < r.start ∨ r.start = e
  · simp [Range.split, g1]
  · have g2 : r.stop < s ∨ r.stop = s := by omega
    simp [Range.split, g1, g2]

/-- When the splitter overlaps `r`, neither guard fires and `split`
returns the conditional left remainder followed by the conditional
right remainder. -/
theorem split_eq_of_overlap (r : Range) (s e : Int)
    (h1 : r.start < e) (h2 : s < r.stop) :
    r.split s e =
      (if r.start < s ∧ s < r.stop then [Range.mk r.start s] else []) ++
      (if r.start < e ∧ e < r.stop then [Range.mk e r.stop] else []) := by
  have g1 : ¬ (e < r.start ∨ r.start = e) := by omega
  have g2 : ¬ (r.stop < s ∨ r.stop = s) := by omega
  simp only [Range.split, g1, g2, if_false]

/-! ### Claim theorems -/

/-- C1: for every `r` and splitter `[s,e)` overlapping `r`
(`r.Start < e` and `s < r.End`), `r.split s e` emits the left remainder
`[r.Start, s)` exactly when `s` is strictly between `r.Start` and
`r.End`, emits the right remainder `[e, r.End)` exactly when `e` is
strictly between `r.Start` and `r.End`, and lists the left remainder
before the right one. -/
theorem split_remainders (r : Range) (s e : Int)
    (h1 : r.start < e) (h2 : s < r.stop) :
    r.split s e =
      (if r.start < s ∧ s < r.stop then [Range.mk r.start s] else []) ++
      (if r.start < e ∧ e < r.stop then [Range.mk e r.stop] else []) :=
  split_eq_of_overlap r s e h1 h2

/-- Witness for C1 at `r = [0,10)`, splitter `[3,7)`: both remainders
are emitted, left first. -/
theorem split_remainders_witness :
    (0 : Int) < 7 ∧ (3 : Int) < 10 ∧
      (Range.mk 0 10).split 3 7 =
        (if (0 : Int) < 3 ∧ (3 : Int) < 10 then [Range.mk 0 3] else []) ++
        (if (0 : Int) < 7 ∧ (7 : Int) < 10 then [Range.mk 7 10] else []) :=
  ⟨by decide, by decide, split_remainders (Range.mk 0 10) 3 7 (by decide) (by decide)⟩

/-- C2: if the splitter starts at or after `r.End`, or ends at or
before `r.Start` (touching counts as no overlap), `split` returns
exactly `[r]`. -/
theorem split_disjoint_noop (r : Range) (s e : Int)
    (h : r.stop ≤ s ∨ e ≤ r.start) : r.split s e = [r] :=
  split_eq_single_of_disjoint r s e h

/-- Witness for C2 at `r = [0,10)`, splitter `[10,20)` touching the
right endpoint. -/
theorem split_disjoint_noop_witness :
    ((10 : Int) ≤ 10 ∨ (20 : Int) ≤ 0) ∧
      (Range.mk 0 10).split 10 20 = [Range.mk 0 10] :=
  ⟨by decide, split_disjoint_noop (Range.mk 0 10) 10 20 (by decide)⟩

/-- C3 counterexample: the zero-length range `[5,5)` with splitter
`[3,5)` satisfies `s ≤ r.Start` and `e ≥ r.End`, yet `split` returns
`[r]`, not the empty sequence: the disjoint guard `r.Start = e` fires
first. -/
theorem split_full_consumption_cex :
    (3 : Int) ≤ (Range.mk 5 5).Start ∧ (Range.mk 5 5).End ≤ (5 : Int) ∧
      (Range.mk 5 5).split 3 5 = [Range.mk 5 5] ∧
      (Range.mk 5 5).split 3 5 ≠ ([] : List Range) := by
  refine ⟨by decide, by decide, by decide, by decide⟩

/-- C3 amended: if `s ≤ r.Start`, `e ≥ r.End`, and the splitter
actually overlaps `r` (`r.Start < e` and `s < r.End`), then `split`
returns the empty sequence.  The overlap proviso only excludes
zero-length ranges touched exactly at their point (`e = r.Start` or
`s = r.End`), which the disjoint guards return unchanged. -/
theorem split_full_consumption (r : Range) (s e : Int)
    (hs : s ≤ r.start) (he : r.stop ≤ e)
    (h1 : r.start < e) (h2 : s < r.stop) :
    r.split s e = [] := by
  rw [split_eq_of_overlap r s e h1 h2]
  have c1 : ¬ (r.start < s ∧ s < r.stop) := by omega
  have c2 : ¬ (r.start < e ∧ e < r.stop) := by omega
  simp [c1, c2]

/-- Witness for C3 (amended) at `r = [0,10)`, splitter `[0,10)`. -/
theorem split_full_consumption_witness :
    (0 : Int) ≤ 0 ∧ (10 : Int) ≤ 10 ∧ (0 : Int) < 10 ∧ (0 : Int) < 10 ∧
      (Range.mk 0 10).split 0 10 = [] :=
  ⟨by decide, by decide, by decide, by decide,
    split_full_consumption (Range.mk 0 10) 0 10 (by decide) (by decide)
      (by decide) (by decide)⟩

/-- C4: for every `r` and well-formed splitter interval `[s,e)`
(`s ≤ e`), the pieces returned by `split` are pairwise non-overlapping
and each is wholly contained in `[r.Start, r.End)`. -/
theorem split_pieces_disjoint_contained (r : Range) (s e : Int) (hse : s ≤ e) :
    (∀ x ∈ r.split s e, r.start ≤ x.start ∧ x.stop ≤ r.stop) ∧
      (r.split s e).Pairwise (fun a b => ¬ rangesOverlap a b) := by
  by_cases g1 : e ≤ r.start
  · rw [split_eq_single_of_disjoint r s e (Or.inr g1)]
    simp
  · by_cases g2 : r.stop ≤ s
    · rw [split_eq_single_of_disjoint r s e (Or.inl g2)]
      simp
    · rw [split_eq_of_overlap r s e (by omega) (by omega)]
      by_cases c1 : r.start < s ∧ s < r.stop <;>
        by_cases c2 : r.start < e ∧ e < r.stop <;>
          simp [c1, c2, rangesOverlap] <;> omega

/-- Witness for C4 at `r = [0,10)`, splitter `[3,7)`. -/
theorem split_pieces_disjoint_contained_witness :
    (3 : Int) ≤ 7 ∧
      ((∀ x ∈ (Range.mk 0 10).split 3 7,
          (Range.mk 0 10).start ≤ x.start ∧ x.stop ≤ (Range.mk 0 10).stop) ∧
        ((Range.mk 0 10).split 3 7).Pairwise (fun a b => ¬ rangesOverlap a b)) :=
  ⟨by decide, split_pieces_disjoint_contained (Range.mk 0 10) 3 7 (by decide)⟩

/-- C5: `After` returns the zero-length range anchored at `r.End` when
`t` is after `r.End`, returns `r` unchanged when `t` is before
`r.Start`, and returns `[t, r.End)` otherwise. -/
theorem after_clip (r : Range) (t : Int) (hr : r.start ≤ r.stop) :
    (r.stop < t → r.After t = Range.mk r.stop r.stop) ∧
      (t < r.start → r.After t = r) ∧
      (r.start ≤ t → t ≤ r.stop → r.After t = Range.mk t r.stop) := by
  refine ⟨fun h => ?_, fun h => ?_, fun ha hb => ?_⟩
  · simp only [Range.After]
    rw [if_pos h]
  · simp only [Range.After]
    rw [if_neg (by omega), if_pos h]
  · simp only [Range.After]
    rw [if_neg (by omega), if_neg (by omega)]

/-- Witness for C5 at `r = [0,10)`, `t = 5` (inside the range). -/
theorem after_clip_witness :
    (0 : Int) ≤ 10 ∧
      (((10 : Int) < 5 → (Range.mk 0 10).After 5 = Range.mk 10 10) ∧
        ((5 : Int) < 0 → (Range.mk 0 10).After 5 = Range.mk 0 10) ∧
        ((0 : Int) ≤ 5 → (5 : Int) ≤ 10 →
          (Range.mk 0 10).After 5 = Range.mk 5 10)) :=
  ⟨by decide, after_clip (Range.mk 0 10) 5 (by decide)⟩

/-- C10: every range emitted by `split` is either the receiver returned
unchanged by a disjoint guard, or has strictly positive duration;
`split` never constructs a new zero-length range. -/
theorem split_no_new_zero_length (r : Range) (s e : Int) :
    ∀ x ∈ r.split s e,
      (x = r ∧ (e ≤ r.start ∨ r.stop ≤ s)) ∨ x.start < x.stop := by
  intro x hx
  by_cases g1 : e ≤ r.start
  · rw [split_eq_single_of_disjoint r s e (Or.inr g1)] at hx
    simp only [List.mem_singleton] at hx
    exact Or.inl ⟨hx, Or.inl g1⟩
  · by_cases g2 : r.stop ≤ s
    · rw [split_eq_single_of_disjoint r s e (Or.inl g2)] at hx
      simp only [List.mem_singleton] at hx
      exact Or.inl ⟨hx, Or.inr g2⟩
    · rw [split_eq_of_overlap r s e (by omega) (by omega)] at hx
      simp only [List.mem_append] at hx
      rcases hx with hx | hx
      · by_cases c1 : r.start < s ∧ s < r.stop
        · rw [if_pos c1] at hx
          simp only [List.mem_singleton] at hx
          subst hx
          exact Or.inr c1.1
        · simp [c1] at hx
      · by_cases c2 : r.start < e ∧ e < r.stop
        · rw [if_pos c2] at hx
          simp only [List.mem_singleton] at hx
          subst hx
          exact Or.inr c2.2
        · simp [c2] at hx

/-- Witness for C10: the left remainder `[0,3)` of splitting `[0,10)`
by `[3,7)` has strictly positive duration. -/
theorem split_no_new_zero_length_witness :
    Range.mk 0 3 ∈ (Range.mk 0 10).split 3 7 ∧
      ((Range.mk 0 3 = Range.mk 0 10 ∧ ((7 : Int) ≤ 0 ∨ (10 : Int) ≤ 3)) ∨
        (0 : Int) < 3) :=
  ⟨by decide,
    split_no_new_zero_length (Range.mk 0 10) 3 7 (Range.mk 0 3) (by decide)⟩

/-- Helper: the accumulator-passing loop of `pruneShort` is a filter. -/
theorem pruneShort_foldl (rs acc : List Range) :
    rs.foldl (fun acc r => if 30 * nsPerMinute ≤ r.Duration then acc ++ [r] else acc) acc
      = acc ++ rs.filter (fun r => decide (30 * nsPerMinute ≤ r.Duration)) := by
  induction rs generalizing acc with
  | nil => simp
  | cons r rs ih =>
    by_cases h : 30 * nsPerMinute ≤ r.Duration
    · rw [List.foldl_cons, if_pos h, ih,
        List.filter_cons_of_pos (by simpa using h)]
      simp
    · rw [List.foldl_cons, if_neg h, ih,
        List.filter_cons_of_neg (by simpa using h)]

/-- C7: the post-processing filter keeps exactly the ranges of duration
at least 30 minutes, preserving relative order (the result is the
order-preserving filter of the input, hence a sublist); a 30-minute
range is kept and a 29-minute range is dropped. -/
theorem prune_short_keeps_long (rs : List Range) :
    pruneShort rs = rs.filter (fun r => decide (30 * nsPerMinute ≤ r.Duration)) ∧
      (pruneShort rs).Sublist rs ∧
      pruneShort [Range.mk 0 (30 * nsPerMinute)] = [Range.mk 0 (30 * nsPerMinute)] ∧
      pruneShort [Range.mk 0 (29 * nsPerMinute)] = [] := by
  have h := pruneShort_foldl rs []
  refine ⟨h, ?_, by decide, by decide⟩
  rw [show pruneShort rs = _ from h]
  simp

/-- C9: one reduction step of the event loop is the identity on a
disjoint busy event: if `[s,e)` overlaps none of the free ranges,
flat-mapping `split s e` over the list returns the list unchanged. -/
theorem splitAll_disjoint_id (s e : Int) (frees : List Range)
    (h : ∀ r ∈ frees, ¬ rangesOverlap (Range.mk s e) r) :
    splitAll s e frees = frees := by
  induction frees with
  | nil => rfl
  | cons r rs ih =>
    have h1 : ¬ rangesOverlap (Range.mk s e) r := h r (by simp)
    have h2 : ∀ x ∈ rs, ¬ rangesOverlap (Range.mk s e) x :=
      fun x hx => h x (by simp [hx])
    have hr : r.stop ≤ s ∨ e ≤ r.start := by
      simp only [rangesOverlap, not_and, not_lt] at h1
      rcases le_or_lt r.stop s with hc | hc
      · exact Or.inl hc
      · exact Or.inr (h1 hc)
    rw [splitAll, split_eq_single_of_disjoint r s e hr, ih h2]
    rfl

/-- Witness for C9 on the list `[[0,10)]` with the disjoint event
`[20,30)`. -/
theorem splitAll_disjoint_id_witness :
    (∀ r ∈ [Range.mk 0 10], ¬ rangesOverlap (Range.mk 20 30) r) ∧
      splitAll 20 30 [Range.mk 0 10] = [Range.mk 0 10] :=
  ⟨by decide, splitAll_disjoint_id 20 30 [Range.mk 0 10] (by decide)⟩

/-- Helper: the candidate start always sits at 10:00 of some date. -/
theorem nextStartCandidate_shape (now : Int) :
    ∃ q : Int, nextStartCandidate now = q * nsPerDay + 10 * nsPerHour := by
  unfold nextStartCandidate tenAMOnDateOf
  split_ifs
  · exact ⟨(now + nsPerDay) / nsPerDay, rfl⟩
  · exact ⟨now / nsPerDay, rfl⟩

/-- Helper: the weekend-adjusted start still sits at 10:00 of some
date. -/
theorem nextStartAdjusted_shape (now : Int) :
    ∃ q : Int, nextStartAdjusted now = q * nsPerDay + 10 * nsPerHour := by
  obtain ⟨q, hq⟩ := nextStartCandidate_shape now
  unfold nextStartAdjusted
  split_ifs
  · exact ⟨q + 2, by rw [hq]; unfold nsPerDay nsPerHour; ring⟩
  · exact ⟨q + 1, by rw [hq]; unfold nsPerDay nsPerHour; ring⟩
  · exact ⟨q, hq⟩

/-- Helper: 18:00 of the date of an instant at 10:00 of date `q` is
18:00 of date `q`. -/
theorem sixPM_after_tenAM (q : Int) :
    sixPMOnDateOf (q * nsPerDay + 10 * nsPerHour) =
      q * nsPerDay + 18 * nsPerHour := by
  unfold sixPMOnDateOf nsPerDay nsPerHour
  omega

/-- Helper: every range produced by `nextWorkDay` runs from 10:00 to
18:00 of one date, so its end is not before its start. -/
theorem nextWorkDay_wf (now : Int) :
    (nextWorkDay now).start ≤ (nextWorkDay now).stop := by
  obtain ⟨q, hq⟩ := nextStartAdjusted_shape now
  show nextStartAdjusted now ≤ sixPMOnDateOf (nextStartAdjusted now)
  rw [hq, sixPM_after_tenAM]
  unfold nsPerDay nsPerHour
  omega

/-- Helper: a reference at exactly 18:00 of date `d` satisfies the
roll-forward guard, so the candidate start is 10:00 of date `d + 1`. -/
theorem nextStartCandidate_at_six (d : Int) :
    nextStartCandidate (d * nsPerDay + 18 * nsPerHour) =
      (d + 1) * nsPerDay + 10 * nsPerHour := by
  have hsix : sixPMOnDateOf (d * nsPerDay + 18 * nsPerHour) =
      d * nsPerDay + 18 * nsPerHour := by
    unfold sixPMOnDateOf nsPerDay nsPerHour
    omega
  unfold nextStartCandidate
  rw [hsix, if_pos (Or.inr rfl)]
  unfold tenAMOnDateOf nsPerDay nsPerHour
  omega

/-- C8: the invariant that a range's end is never before its start is
established by `nextWorkDay` and preserved by `split` and `After`: for
every input range with `end ≥ start`, every range they return also has
`end ≥ start`. -/
theorem end_never_before_start (r : Range) (s e t now : Int)
    (hr : r.start ≤ r.stop) :
    (∀ x ∈ r.split s e, x.start ≤ x.stop) ∧
      (r.After t).start ≤ (r.After t).stop ∧
      (nextWorkDay now).start ≤ (nextWorkDay now).stop := by
  refine ⟨fun x hx => ?_, ?_, nextWorkDay_wf now⟩
  · by_cases g1 : e ≤ r.start
    · rw [split_eq_single_of_disjoint r s e (Or.inr g1)] at hx
      simp only [List.mem_singleton] at hx
      subst hx
      exact hr
    · by_cases g2 : r.stop ≤ s
      · rw [split_eq_single_of_disjoint r s e (Or.inl g2)] at hx
        simp only [List.mem_singleton] at hx
        subst hx
        exact hr
      · rw [split_eq_of_overlap r s e (by omega) (by omega)] at hx
        simp only [List.mem_append] at hx
        rcases hx with hx | hx
        · by_cases c1 : r.start < s ∧ s < r.stop
          · rw [if_pos c1] at hx
            simp only [List.mem_singleton] at hx
            subst hx
            exact le_of_lt c1.1
          · simp [c1] at hx
        · by_cases c2 : r.start < e ∧ e < r.stop
          · rw [if_pos c2] at hx
            simp only [List.mem_singleton] at hx
            subst hx
            exact le_of_lt c2.2
          · simp [c2] at hx
  · unfold Range.After
    split_ifs with h1 h2
    · show r.stop ≤ r.stop
      exact le_refl _
    · exact hr
    · show t ≤ r.stop
      omega

/-- Witness for C8 at `r = [0,10)`, splitter `[3,7)`, `t = 5`,
`now = 0`. -/
theorem end_never_before_start_witness :
    (0 : Int) ≤ 10 ∧
      ((∀ x ∈ (Range.mk 0 10).split 3 7, x.start ≤ x.stop) ∧
        ((Range.mk 0 10).After 5).start ≤ ((Range.mk 0 10).After 5).stop ∧
        (nextWorkDay 0).start ≤ (nextWorkDay 0).stop) :=
  ⟨by decide, end_never_before_start (Range.mk 0 10) 3 7 5 0 (by decide)⟩

/-- C6: a reference exactly at 18:00 of any date rolls the candidate
start to the next date, and chained with the weekend adjustment this
means a reference at Friday 18:00 of date `d` yields the range
[Monday 10:00, Monday 18:00] of date `d + 3`, which is a Monday. -/
theorem nextWorkDay_friday_rollover (d : Int)
    (hfri : weekdayOf (d * nsPerDay) = 5) :
    (∀ d2 : Int, nextStartCandidate (d2 * nsPerDay + 18 * nsPerHour) =
        (d2 + 1) * nsPerDay + 10 * nsPerHour) ∧
      nextWorkDay (d * nsPerDay + 18 * nsPerHour) =
        Range.mk ((d + 3) * nsPerDay + 10 * nsPerHour)
          ((d + 3) * nsPerDay + 18 * nsPerHour) ∧
      weekdayOf ((d + 3) * nsPerDay) = 1 := by
  unfold weekdayOf nsPerDay at hfri
  refine ⟨nextStartCandidate_at_six, ?_, ?_⟩
  · have hwk : weekdayOf ((d + 1) * nsPerDay + 10 * nsPerHour) = 6 := by
      unfold weekdayOf nsPerDay nsPerHour
      omega
    have hadj : nextStartAdjusted (d * nsPerDay + 18 * nsPerHour) =
        (d + 3) * nsPerDay + 10 * nsPerHour := by
      unfold nextStartAdjusted
      rw [nextStartCandidate_at_six d, if_pos hwk]
      unfold nsPerDay nsPerHour
      ring
    unfold nextWorkDay
    rw [hadj, sixPM_after_tenAM]
  · unfold weekdayOf nsPerDay
    omega

/-- Witness for C6 at `d = 4` (epoch date 0 is a Monday, so date 4 is a
Friday). -/
theorem nextWorkDay_friday_rollover_witness :
    weekdayOf (4 * nsPerDay) = 5 ∧
      ((∀ d2 : Int, nextStartCandidate (d2 * nsPerDay + 18 * nsPerHour) =
          (d2 + 1) * nsPerDay + 10 * nsPerHour) ∧
        nextWorkDay (4 * nsPerDay + 18 * nsPerHour) =
          Range.mk (((4 : Int) + 3) * nsPerDay + 10 * nsPerHour)
            (((4 : Int) + 3) * nsPerDay + 18 * nsPerHour) ∧
        weekdayOf (((4 : Int) + 3) * nsPerDay) = 1) :=
  ⟨by decide, nextWorkDay_friday_rollover 4 (by decide)⟩

end Freetime
